import Mathlib

/-!
Verification of the Mandelbrot renderer in `src/mandlebrot/src/main.rs`.

Modelling conventions for the shallow embedding:
* `f64` / `f32` values are modelled as exact rationals (`ℚ`); the source
  performs only `+`, `-`, `*`, `/` and order comparisons on them. This
  embedding therefore captures only properties that are independent of
  IEEE-754 rounding; an identity that holds by exact cancellation over `ℚ`
  (noted where it occurs) does not transfer to the program's `f64`
  arithmetic, and claims whose truth depends on rounding are out of the
  model's scope.
* `u8` channel values are modelled as `Fin 256`; the Rust saturating cast
  `f32 as u8` is modelled by `u8cast` (truncation toward zero, clamped).
* `usize` / `u32` values are modelled as `ℕ`, `i32` as `ℤ` with an explicit
  range check in the string parser.
* The imperative `render` (which writes through a mutable slice after an
  `assert!`) is modelled in the `Except` monad: the assertion failure and an
  out-of-bounds write are the two distinguishable failure modes.
-/

/-- Model of `num::Complex<f64>`: a point of the plane with rational
coordinates. -/
structure Cplx where
  re : ℚ
  im : ℚ
deriving DecidableEq

instance : Mul Cplx :=
  ⟨fun a b => ⟨a.re * b.re - a.im * b.im, a.re * b.im + a.im * b.re⟩⟩

instance : Add Cplx :=
  ⟨fun a b => ⟨a.re + b.re, a.im + b.im⟩⟩

@[simp] theorem Cplx.mul_def (a b : Cplx) :
    a * b = ⟨a.re * b.re - a.im * b.im, a.re * b.im + a.im * b.re⟩ := rfl

@[simp] theorem Cplx.add_def (a b : Cplx) :
    a + b = ⟨a.re + b.re, a.im + b.im⟩ := rfl

/-- Model of `Complex::norm_sqr`: squared magnitude `re² + im²`. -/
def Cplx.normSq (z : Cplx) : ℚ := z.re * z.re + z.im * z.im

/-- The loop body of `escape_time`: starting from accumulator `z` at loop
index `i` with `fuel` iterations remaining, run
`z = z*z + c; if z.norm_sqr() > 4.0 { return Some(i) }` until the fuel is
exhausted. -/
def escapeAux (c z : Cplx) (i fuel : ℕ) : Option ℕ :=
  match fuel with
  | 0 => none
  | fuel + 1 =>
    if 4 < (z * z + c).normSq then some i
    else escapeAux c (z * z + c) (i + 1) fuel

/-- Translation of `fn escape_time(c: Complex<f64>, limit: u32) -> Option<u32>` from
`src/mandlebrot/src/main.rs` (lines 20–29): iterate `z = z*z + c` from
`z = 0` for at most `limit` steps, returning `Some(i)` at the first loop
index `i` whose updated `z` has `norm_sqr() > 4.0`, and `None` otherwise. -/
def escape_time (c : Cplx) (limit : ℕ) : Option ℕ :=
  escapeAux c ⟨0, 0⟩ 0 limit

/-- The orbit of `c`: `orbit c 0 = 0` and `orbit c (k+1) = (orbit c k)² + c`.
This is the specification-side description of the iteration sequence. -/
def orbit (c : Cplx) : ℕ → Cplx
  | 0 => ⟨0, 0⟩
  | k + 1 => orbit c k * orbit c k + c

theorem orbit_succ (c : Cplx) (k : ℕ) :
    orbit c (k + 1) = orbit c k * orbit c k + c := rfl

theorem orbit_one (c : Cplx) : orbit c 1 = c := by
  cases c with
  | mk re im =>
    show Cplx.mk _ _ = Cplx.mk re im
    simp [orbit]

theorem escapeAux_eq_some_iff (c : Cplx) (fuel : ℕ) : ∀ (k i : ℕ),
    escapeAux c (orbit c k) k fuel = some i ↔
      (k ≤ i ∧ i < k + fuel ∧ 4 < (orbit c (i + 1)).normSq ∧
        ∀ j, k ≤ j → j < i → (orbit c (j + 1)).normSq ≤ 4) := by
  induction fuel with
  | zero =>
    intro k i
    constructor
    · intro h
      exact absurd h (by simp [escapeAux])
    · rintro ⟨h1, h2, -, -⟩
      omega
  | succ fuel ih =>
    intro k i
    have horb : orbit c k * orbit c k + c = orbit c (k + 1) := rfl
    rw [escapeAux, horb]
    by_cases hesc : 4 < (orbit c (k + 1)).normSq
    · rw [if_pos hesc]
      constructor
      · intro h
        have hk : k = i := by simpa using h
        subst hk
        exact ⟨le_rfl, by omega, hesc, fun j hj hji => by omega⟩
      · rintro ⟨hki, hlt, hcond, hall⟩
        have hik : i = k := by
          rcases Nat.eq_or_lt_of_le hki with h | h
          · exact h.symm
          · exact absurd (hall k le_rfl h) (not_le.mpr hesc)
        subst hik
        rfl
    · rw [if_neg hesc, ih (k + 1) i]
      constructor
      · rintro ⟨h1, h2, h3, h4⟩
        refine ⟨by omega, by omega, h3, ?_⟩
        intro j hj hji
        rcases Nat.eq_or_lt_of_le hj with rfl | h
        · exact le_of_not_lt hesc
        · exact h4 j h hji
      · rintro ⟨h1, h2, h3, h4⟩
        have hik : k ≠ i := by
          rintro rfl
          exact hesc h3
        refine ⟨by omega, by omega, h3, fun j hj hji => h4 j (by omega) hji⟩

theorem escapeAux_eq_none_iff (c : Cplx) (fuel : ℕ) : ∀ (k : ℕ),
    escapeAux c (orbit c k) k fuel = none ↔
      ∀ j, k ≤ j → j < k + fuel → (orbit c (j + 1)).normSq ≤ 4 := by
  induction fuel with
  | zero =>
    intro k
    constructor
    · intro _ j hj hlt
      omega
    · intro _
      simp [escapeAux]
  | succ fuel ih =>
    intro k
    have horb : orbit c k * orbit c k + c = orbit c (k + 1) := rfl
    rw [escapeAux, horb]
    by_cases hesc : 4 < (orbit c (k + 1)).normSq
    · rw [if_pos hesc]
      constructor
      · intro h
        exact absurd h (by simp)
      · intro hall
        exact absurd (hall k le_rfl (by omega)) (not_le.mpr hesc)
    · rw [if_neg hesc, ih (k + 1)]
      constructor
      · intro h j hj hlt
        rcases Nat.eq_or_lt_of_le hj with rfl | hj'
        · exact le_of_not_lt hesc
        · exact h j hj' (by omega)
      · intro h j hj hlt
        exact h j (by omega) (by omega)

theorem escape_time_eq_some_iff (c : Cplx) (limit i : ℕ) :
    escape_time c limit = some i ↔
      (i < limit ∧ 4 < (orbit c (i + 1)).normSq ∧
        ∀ j, j < i → (orbit c (j + 1)).normSq ≤ 4) := by
  have h := escapeAux_eq_some_iff c limit 0 i
  rw [show escape_time c limit = escapeAux c (orbit c 0) 0 limit from rfl, h]
  constructor
  · rintro ⟨-, h2, h3, h4⟩
    exact ⟨by omega, h3, fun j hj => h4 j (Nat.zero_le j) hj⟩
  · rintro ⟨h2, h3, h4⟩
    exact ⟨Nat.zero_le i, by omega, h3, fun j _ hj => h4 j hj⟩

theorem escape_time_eq_none_iff (c : Cplx) (limit : ℕ) :
    escape_time c limit = none ↔
      ∀ i, i < limit → (orbit c (i + 1)).normSq ≤ 4 := by
  have h := escapeAux_eq_none_iff c limit 0
  rw [show escape_time c limit = escapeAux c (orbit c 0) 0 limit from rfl, h]
  constructor
  · intro h i hi
    exact h i (Nat.zero_le i) (by omega)
  · intro h i _ hi
    exact h i (by omega)

/-- Claim C2: `escape_time c limit` returns `some i` exactly when `i` is the
least 0-based loop index, with `i < limit`, at which the orbit
`z₀ = 0, z_{k+1} = z_k² + c` first satisfies `|z_{i+1}|² > 4` (the test is
applied after each update), and returns `none` exactly when no iterate within
the limit exceeds squared magnitude 4. -/
theorem escape_time_characterization (c : Cplx) (limit : ℕ) :
    (∀ i, escape_time c limit = some i ↔
      (i < limit ∧ 4 < (orbit c (i + 1)).normSq ∧
        ∀ j, j < i → (orbit c (j + 1)).normSq ≤ 4)) ∧
    (escape_time c limit = none ↔
      ∀ i, i < limit → (orbit c (i + 1)).normSq ≤ 4) :=
  ⟨fun i => escape_time_eq_some_iff c limit i, escape_time_eq_none_iff c limit⟩

/-- Claim C6: `escape_time` is monotonic in its limit argument: raising the
limit never turns `some i` into `none` and never changes the recorded escape
iteration count. -/
theorem escape_time_mono (c : Cplx) (L1 L2 i : ℕ) (hle : L1 ≤ L2)
    (h : escape_time c L1 = some i) : escape_time c L2 = some i := by
  rw [escape_time_eq_some_iff] at h ⊢
  exact ⟨lt_of_lt_of_le h.1 hle, h.2.1, h.2.2⟩

/-- Witness for claim C6 at the concrete input `c = 3`, limits `1 ≤ 3`. -/
theorem escape_time_mono_witness :
    (1 : ℕ) ≤ 3 ∧ escape_time ⟨3, 0⟩ 1 = some 0 ∧
      escape_time ⟨3, 0⟩ 3 = some 0 := by
  have h1 : escape_time ⟨3, 0⟩ 1 = some 0 := by
    norm_num [escape_time, escapeAux, Cplx.normSq]
  exact ⟨by decide, h1, escape_time_mono ⟨3, 0⟩ 1 3 0 (by decide) h1⟩

/-- Claim C4, counterexample: at `c = 3` (so `|c|² = 9 > 4`) and iteration
limit `0`, `escape_time` returns `none`, not `some 0`, so the claim fails for
the limit `0`. -/
theorem escape_time_far_point_cex :
    4 < Cplx.normSq ⟨3, 0⟩ ∧ escape_time ⟨3, 0⟩ 0 ≠ some 0 := by
  constructor
  · norm_num [Cplx.normSq]
  · simp [escape_time, escapeAux]

/-- Claim C4 (amended: the limit must be at least 1; `limit = 0` exhausts the
loop immediately and yields `none`): for every `c` with `|c|² > 4` and every
limit `≥ 1`, `escape_time c limit = some 0`, i.e. escape is recorded at
iteration index 0. -/
theorem escape_time_far_point (c : Cplx) (limit : ℕ)
    (hc : 4 < c.normSq) (hl : 1 ≤ limit) : escape_time c limit = some 0 := by
  rw [escape_time_eq_some_iff]
  refine ⟨by omega, ?_, fun j hj => by omega⟩
  rw [orbit_one]
  exact hc

/-- Witness for claim C4 (amended) at the concrete input `c = 3`, limit 1. -/
theorem escape_time_far_point_witness :
    (4 < Cplx.normSq ⟨3, 0⟩ ∧ (1 : ℕ) ≤ 1) ∧ escape_time ⟨3, 0⟩ 1 = some 0 :=
  ⟨⟨by norm_num [Cplx.normSq], le_rfl⟩,
    escape_time_far_point ⟨3, 0⟩ 1 (by norm_num [Cplx.normSq]) le_rfl⟩

/-- Translation of `fn pixel_to_point(bounds, pixel, upper_left, lower_right)` from
`src/mandlebrot/src/main.rs` (lines 102–114): affine map from pixel
coordinates `(column, row)` to the plane, where
`width = lower_right.re - upper_left.re` and
`height = upper_left.im - lower_right.im` (the row direction is flipped). -/
def pixel_to_point (bounds pixel : ℕ × ℕ) (upper_left lower_right : Cplx) :
    Cplx :=
  ⟨upper_left.re +
      (pixel.1 : ℚ) * (lower_right.re - upper_left.re) / (bounds.1 : ℚ),
    upper_left.im -
      (pixel.2 : ℚ) * (upper_left.im - lower_right.im) / (bounds.2 : ℚ)⟩

/-- The Rust saturating cast `f32 as u8`: truncate toward zero and clamp to
`[0, 255]` (for a nonnegative argument truncation is the floor; a negative
argument clamps to 0 via `Int.toNat`). -/
def u8cast (q : ℚ) : Fin 256 := ⟨min 255 (⌊q⌋.toNat), by omega⟩

/-- Model of `image::Rgb<u8>`: three 8-bit channels. -/
structure Color where
  r : Fin 256
  g : Fin 256
  b : Fin 256
deriving DecidableEq

/-- One channel of the gradient: the `lerp` crate computes
`self + ((other - self) * t)` in `f32`, and `render` casts the result with
`as u8`. -/
def lerpChannel (lo hi : Fin 256) (t : ℚ) : Fin 256 :=
  u8cast (((lo : ℕ) : ℚ) + ((((hi : ℕ) : ℚ)) - ((lo : ℕ) : ℚ)) * t)

/-- The three independent channel interpolations performed by the
`for i in 0..3` loop of `render` (lines 150–152). -/
def lerpColor (lo hi : Color) (t : ℚ) : Color :=
  ⟨lerpChannel lo.r hi.r t, lerpChannel lo.g hi.g t, lerpChannel lo.b hi.b t⟩

theorem u8cast_coe (x : Fin 256) : u8cast ((x : ℕ) : ℚ) = x := by
  apply Fin.ext
  show min 255 (⌊((x : ℕ) : ℚ)⌋.toNat) = (x : ℕ)
  rw [Int.floor_natCast, Int.toNat_natCast]
  have := x.isLt
  omega

/-- Claim C8: for every pair of endpoint colors, the per-channel
interpolation returns exactly the low color at `t = 0` and exactly the high
color at `t = 1`, on each of the three 8-bit channels. -/
theorem lerp_endpoints (lo hi : Color) :
    lerpColor lo hi 0 = lo ∧ lerpColor lo hi 1 = hi := by
  have hch0 : ∀ a b : Fin 256, lerpChannel a b 0 = a := by
    intro a b
    unfold lerpChannel
    rw [mul_zero, add_zero]
    exact u8cast_coe a
  have hch1 : ∀ a b : Fin 256, lerpChannel a b 1 = b := by
    intro a b
    unfold lerpChannel
    have h : (((a : ℕ) : ℚ)) + ((((b : ℕ) : ℚ)) - ((a : ℕ) : ℚ)) * 1 =
        ((b : ℕ) : ℚ) := by ring
    rw [h]
    exact u8cast_coe b
  cases lo
  cases hi
  exact ⟨by simp [lerpColor, hch0], by simp [lerpColor, hch1]⟩

/-- The interpolation scalar computed by `render` (lines 143–146) for the
point `c`, with the fixed iteration limit 10000:
`None => 0.0`, `Some(count) => (10000.0 - count as f32) / 10000.0`. -/
def scalarOf (c : Cplx) : ℚ :=
  match escape_time c 10000 with
  | none => 0
  | some count => (10000 - (count : ℚ)) / 10000

/-- Case description of `scalarOf`: the `none` branch yields exactly 0, and
every `some count` branch has `count < 10000` and a strictly positive
scalar. -/
def scalarSpec (c : Cplx) : Prop :=
  match escape_time c 10000 with
  | none => scalarOf c = 0
  | some count => count < 10000 ∧ 0 < scalarOf c

/-- Claim C10: the interpolation scalar of every pixel lies in `[0, 1]`;
the `none` case yields exactly 0 and every `some count` case has
`count < 10000` with scalar in `(0, 1]`, so the out-of-range extrapolation
scenario is unreachable from `render`. -/
theorem render_scalar_unit_interval (c : Cplx) :
    (0 ≤ scalarOf c ∧ scalarOf c ≤ 1) ∧ scalarSpec c := by
  cases h : escape_time c 10000 with
  | none =>
    have h0 : scalarOf c = 0 := by simp [scalarOf, h]
    refine ⟨⟨by rw [h0], by rw [h0]; norm_num⟩, ?_⟩
    simp only [scalarSpec, h]
    exact h0
  | some n =>
    have hn : n < 10000 := ((escape_time_eq_some_iff c 10000 n).mp h).1
    have hq : (n : ℚ) < 10000 := by exact_mod_cast hn
    have hs : scalarOf c = (10000 - (n : ℚ)) / 10000 := by simp [scalarOf, h]
    have h0 : 0 < scalarOf c := by
      rw [hs]
      apply div_pos (by linarith) (by norm_num)
    have h1 : scalarOf c ≤ 1 := by
      rw [hs, div_le_one (by norm_num)]
      have hnn : (0 : ℚ) ≤ (n : ℚ) := Nat.cast_nonneg n
      linarith
    refine ⟨⟨le_of_lt h0, h1⟩, ?_⟩
    simp only [scalarSpec, h]
    exact ⟨hn, h0⟩

/-- The color `render` computes for the pixel `(col, row)` of a raster with
bounds `(W, H)` mapped to the rectangle `[ul, lr]`. -/
def pixelColor (W H col row : ℕ) (ul lr : Cplx) (lo hi : Color) : Color :=
  lerpColor lo hi (scalarOf (pixel_to_point (W, H) (col, row) ul lr))

/-- The two failure modes of the imperative `render`: the explicit
`assert!(pixels.len() == bounds.0 * bounds.1)` and an out-of-bounds indexing
of the pixel buffer (both panics in Rust, distinguished here). -/
inductive RenderErr where
  | assertFail
  | oobWrite
deriving DecidableEq

/-- A checked write `pixels[i] = c`: Rust slice indexing panics when the
index is out of bounds. -/
def setCk (buf : List Color) (i : ℕ) (c : Color) : Except RenderErr (List Color) :=
  if i < buf.length then Except.ok (buf.set i c) else Except.error RenderErr.oobWrite

/-- Translation of `fn render(pixels, bounds, upper_left, lower_right, lower_color,
upper_color)` from `src/mandlebrot/src/main.rs` (lines 130–153): assert the
buffer length, then for each `row in 0..bounds.1` and `column in 0..bounds.0`
write the interpolated color at buffer index `row * bounds.0 + column`. -/
def render (pixels : List Color) (W H : ℕ) (ul lr : Cplx) (lo hi : Color) :
    Except RenderErr (List Color) :=
  if pixels.length = W * H then
    (List.range H).foldlM
      (fun buf row =>
        (List.range W).foldlM
          (fun buf col =>
            setCk buf (row * W + col) (pixelColor W H col row ul lr lo hi))
          buf)
      pixels
  else Except.error RenderErr.assertFail

/-- The row-major list of colors `render` produces: row `row`, column `col`
holds `pixelColor W H col row`. -/
def renderPure (W H : ℕ) (ul lr : Cplx) (lo hi : Color) : List Color :=
  (List.range H).flatMap fun row =>
    (List.range W).map fun col => pixelColor W H col row ul lr lo hi

theorem bindOk {ε α β : Type} (x : α) (f : α → Except ε β) :
    (Except.ok x : Except ε α) >>= f = f x := rfl

theorem foldlM_congr {α β ε : Type} :
    ∀ (l : List α) (f g : β → α → Except ε β) (b : β),
      (∀ x ∈ l, ∀ s, f s x = g s x) → l.foldlM f b = l.foldlM g b := by
  intro l
  induction l with
  | nil => intro f g b _; rfl
  | cons a l ih =>
    intro f g b h
    rw [List.foldlM_cons, List.foldlM_cons, h a (List.mem_cons_self a l)]
    cases hg : g b a with
    | error e => rfl
    | ok b2 =>
      rw [bindOk, bindOk]
      exact ih f g b2 (fun x hx s => h x (List.mem_cons_of_mem a hx) s)

theorem foldlM_flatMap {α β σ ε : Type} (g : α → List β)
    (f : σ → β → Except ε σ) :
    ∀ (rs : List α) (b : σ),
      ((rs.flatMap g).foldlM f b) = rs.foldlM (fun s r => (g r).foldlM f s) b := by
  intro rs
  induction rs with
  | nil => intro b; rfl
  | cons a rs ih =>
    intro b
    rw [List.flatMap_cons, List.foldlM_append, List.foldlM_cons]
    cases h : (g a).foldlM f b with
    | error e => rfl
    | ok b2 =>
      rw [bindOk, bindOk]
      exact ih b2

theorem foldlM_setCk (v : ℕ → Color) :
    ∀ (idxs : List ℕ) (buf : List Color), (∀ i ∈ idxs, i < buf.length) →
      ∃ out, idxs.foldlM (fun b i => setCk b i (v i)) buf = Except.ok out ∧
        out.length = buf.length ∧
        ∀ j, out[j]? = if j ∈ idxs then some (v j) else buf[j]? := by
  intro idxs
  induction idxs with
  | nil =>
    intro buf _
    exact ⟨buf, rfl, rfl, fun j => by simp⟩
  | cons i idxs ih =>
    intro buf hb
    have hi : i < buf.length := hb i (List.mem_cons_self i idxs)
    obtain ⟨out, hout, hlen, hget⟩ := ih (buf.set i (v i)) (by
      intro x hx
      rw [List.length_set]
      exact hb x (List.mem_cons_of_mem i hx))
    refine ⟨out, ?_, by rw [hlen, List.length_set], ?_⟩
    · rw [List.foldlM_cons]
      have hstep : setCk buf i (v i) = Except.ok (buf.set i (v i)) := by
        rw [setCk, if_pos hi]
      rw [hstep, bindOk]
      exact hout
    · intro j
      rw [hget j]
      by_cases hj : j ∈ idxs
      · rw [if_pos hj, if_pos (List.mem_cons_of_mem i hj)]
      · rw [if_neg hj]
        by_cases hji : j = i
        · subst hji
          rw [if_pos (List.mem_cons_self j idxs), List.getElem?_set,
            if_pos rfl, if_pos hi]
        · rw [List.getElem?_set, if_neg (fun h => hji h.symm),
            if_neg (by simp [List.mem_cons, hji, hj])]

/-- The flat buffer indices written by the two nested loops of `render`, in
write order. -/
def pixIdxs (W H : ℕ) : List ℕ :=
  (List.range H).flatMap fun row => (List.range W).map fun col => row * W + col

theorem mem_pixIdxs (W H : ℕ) (j : ℕ) : j ∈ pixIdxs W H ↔ j < H * W := by
  unfold pixIdxs
  simp only [List.mem_flatMap, List.mem_map, List.mem_range]
  constructor
  · rintro ⟨row, hrow, col, hcol, rfl⟩
    calc row * W + col < row * W + W := by omega
      _ = (row + 1) * W := by ring
      _ ≤ H * W := Nat.mul_le_mul_right W (by omega)
  · intro hj
    rcases Nat.eq_zero_or_pos W with rfl | hW
    · rw [Nat.mul_zero] at hj
      omega
    refine ⟨j / W, (Nat.div_lt_iff_lt_mul hW).mpr hj, j % W, Nat.mod_lt j hW, ?_⟩
    have h := Nat.div_add_mod j W
    calc j / W * W + j % W = W * (j / W) + j % W := by ring
      _ = j := h

theorem flat_grid_length (W : ℕ) (g : ℕ → ℕ → Color) : ∀ H : ℕ,
    ((List.range H).flatMap fun row =>
      (List.range W).map fun col => g col row).length = H * W := by
  intro H
  induction H with
  | zero => simp
  | succ H ih =>
    rw [List.range_succ, List.flatMap_append, List.length_append, ih]
    simp only [List.flatMap_cons, List.flatMap_nil, List.append_nil,
      List.length_map, List.length_range]
    ring

theorem flat_grid_getElem? (W : ℕ) (g : ℕ → ℕ → Color) : ∀ (H j : ℕ),
    j < H * W →
    ((List.range H).flatMap fun row =>
      (List.range W).map fun col => g col row)[j]? = some (g (j % W) (j / W)) := by
  intro H
  induction H with
  | zero => intro j hj; omega
  | succ H ih =>
    intro j hj
    rw [List.range_succ, List.flatMap_append, List.getElem?_append]
    rw [flat_grid_length W g H]
    by_cases hcase : j < H * W
    · rw [if_pos hcase]
      exact ih j hcase
    · rw [if_neg hcase]
      rcases Nat.eq_zero_or_pos W with rfl | hW
      · rw [Nat.mul_zero] at hj
        omega
      have hsucc : (H + 1) * W = H * W + W := by ring
      have hd : j - H * W < W := by omega
      have hrow : ([H].flatMap fun row =>
          (List.range W).map fun col => g col row) =
          (List.range W).map fun col => g col H := by simp
      rw [hrow, List.getElem?_map, List.getElem?_range hd]
      have hcomm : W * H = H * W := Nat.mul_comm W H
      have h2 : W * H + (j - H * W) = j := by omega
      have hmod : j % W = j - H * W := by
        calc j % W = (W * H + (j - H * W)) % W := by rw [h2]
          _ = (j - H * W) % W := Nat.mul_add_mod W H (j - H * W)
          _ = j - H * W := Nat.mod_eq_of_lt hd
      have hdiv : j / W = H := by
        calc j / W = (W * H + (j - H * W)) / W := by rw [h2]
          _ = H + (j - H * W) / W := Nat.mul_add_div hW H (j - H * W)
          _ = H := by rw [Nat.div_eq_of_lt hd]; omega
      rw [hmod, hdiv]
      rfl

theorem render_ok (pixels : List Color) (W H : ℕ) (ul lr : Cplx)
    (lo hi : Color) (hlen : pixels.length = W * H) :
    render pixels W H ul lr lo hi =
      Except.ok (renderPure W H ul lr lo hi) := by
  have hv : ∀ (row col : ℕ), col < W →
      pixelColor W H ((row * W + col) % W) ((row * W + col) / W) ul lr lo hi =
        pixelColor W H col row ul lr lo hi := by
    intro row col hcol
    have hW : 0 < W := by omega
    have h1 : row * W + col = col + row * W := by ring
    have hmod : (row * W + col) % W = col := by
      rw [h1, Nat.add_mul_mod_self_right, Nat.mod_eq_of_lt hcol]
    have hdiv : (row * W + col) / W = row := by
      rw [h1, Nat.add_mul_div_right col row hW, Nat.div_eq_of_lt hcol]
      omega
    rw [hmod, hdiv]
  unfold render
  rw [if_pos hlen]
  have hnest :
      (List.range H).foldlM
        (fun buf row => (List.range W).foldlM
          (fun buf col => setCk buf (row * W + col)
            (pixelColor W H col row ul lr lo hi)) buf) pixels =
      (pixIdxs W H).foldlM
        (fun b j => setCk b j (pixelColor W H (j % W) (j / W) ul lr lo hi))
        pixels := by
    rw [pixIdxs, foldlM_flatMap]
    apply foldlM_congr
    intro row _ s
    rw [List.foldlM_map]
    apply foldlM_congr
    intro col hcol s2
    rw [hv row col (List.mem_range.mp hcol)]
  rw [hnest]
  obtain ⟨out, hout, hlen2, hget⟩ :=
    foldlM_setCk (fun j => pixelColor W H (j % W) (j / W) ul lr lo hi)
      (pixIdxs W H) pixels (by
        intro i hi
        rw [hlen]
        rw [mem_pixIdxs] at hi
        have hcomm : H * W = W * H := Nat.mul_comm H W
        omega)
  rw [hout]
  congr 1
  apply List.ext_getElem?
  intro j
  rw [hget j]
  by_cases hj : j < H * W
  · rw [if_pos ((mem_pixIdxs W H j).mpr hj)]
    exact (flat_grid_getElem? W
      (fun col row => pixelColor W H col row ul lr lo hi) H j hj).symm
  · rw [if_neg (fun h => hj ((mem_pixIdxs W H j).mp h))]
    have hcomm : H * W = W * H := Nat.mul_comm H W
    rw [List.getElem?_eq_none (by omega)]
    rw [show renderPure W H ul lr lo hi = ((List.range H).flatMap fun row =>
      (List.range W).map fun col => pixelColor W H col row ul lr lo hi) from rfl]
    rw [List.getElem?_eq_none (by rw [flat_grid_length]; omega)]

/-- Claim C7: `render` fails with the fatal assertion exactly when
`pixels.len() ≠ bounds.0 * bounds.1`; under that precondition every buffer
write at index `row * bounds.0 + column` is in bounds, so `render` never
panics on a buffer access (it never reaches the out-of-bounds failure). -/
theorem render_assert_iff (pixels : List Color) (W H : ℕ) (ul lr : Cplx)
    (lo hi : Color) :
    (render pixels W H ul lr lo hi = Except.error RenderErr.assertFail ↔
      pixels.length ≠ W * H) ∧
    render pixels W H ul lr lo hi ≠ Except.error RenderErr.oobWrite := by
  by_cases hlen : pixels.length = W * H
  · rw [render_ok pixels W H ul lr lo hi hlen]
    exact ⟨by simp [hlen], by simp⟩
  · unfold render
    rw [if_neg hlen]
    exact ⟨by simp [hlen], by simp⟩

/-- Definition `rows_per_band = bounds.1 / threads + 1` from `main` (line 196). -/
def rowsPerBand (H workers : ℕ) : ℕ := H / workers + 1

/-- The number of chunks `chunks_mut(size)` yields on a slice of `len`
elements (ceiling division). -/
def numChunks (len size : ℕ) : ℕ := (len + size - 1) / size

/-- Start offset of chunk `i` in the flat buffer. -/
def chunkStart (size i : ℕ) : ℕ := i * size

/-- Length of chunk `i` of a slice of `len` elements (the final chunk is
truncated to the remainder). -/
def chunkLen (len size i : ℕ) : ℕ := min size (len - i * size)

/-- Definition `let top = rows_per_band * i` from `main` (line 201). -/
def bandTop (rpb i : ℕ) : ℕ := rpb * i

/-- Definition `let height = band.len() / bounds.0` from `main` (line 202), for the
`i`-th chunk of the `bounds.0 * bounds.1` pixel buffer. -/
def bandHeight (W H rpb i : ℕ) : ℕ := chunkLen (W * H) (rpb * W) i / W

theorem chunkLen_eq (W H rpb i : ℕ) :
    chunkLen (W * H) (rpb * W) i = W * min rpb (H - rpb * i) := by
  unfold chunkLen
  have e1 : W * H - i * (rpb * W) = W * (H - rpb * i) := by
    have h1 : i * (rpb * W) = W * (rpb * i) := by ring
    rw [h1, ← Nat.mul_sub]
  have e2 : rpb * W = W * rpb := by ring
  rw [e1, e2]
  rcases le_total rpb (H - rpb * i) with h | h
  · rw [min_eq_left h, min_eq_left (Nat.mul_le_mul_left W h)]
  · rw [min_eq_right h, min_eq_right (Nat.mul_le_mul_left W h)]

theorem bandHeight_eq (W H rpb i : ℕ) (hW : 0 < W) :
    bandHeight W H rpb i = min rpb (H - rpb * i) := by
  unfold bandHeight
  rw [chunkLen_eq W H rpb i, Nat.mul_div_cancel_left _ hW]

theorem numChunks_eq (W H rpb : ℕ) (hW : 0 < W) (hrpb : 0 < rpb) :
    numChunks (W * H) (rpb * W) = (H + rpb - 1) / rpb := by
  unfold numChunks
  have hs : 0 < rpb * W := Nat.mul_pos hrpb hW
  rcases Nat.eq_zero_or_pos H with rfl | hH
  · rw [Nat.mul_zero, Nat.zero_add, Nat.zero_add]
    rw [Nat.div_eq_of_lt (by omega), Nat.div_eq_of_lt (by omega)]
  · have hWH : 0 < W * H := Nat.mul_pos hW hH
    have e1 : W * H + rpb * W - 1 = (W * H - 1) + rpb * W := by omega
    rw [e1, Nat.add_div_right _ hs]
    have e2 : (W * H - 1) / (rpb * W) = (H - 1) / rpb := by
      rw [show rpb * W = W * rpb from Nat.mul_comm rpb W,
        ← Nat.div_div_eq_div_mul]
      congr 1
      have h4 : W * (H - 1) = W * H - W * 1 := Nat.mul_sub W H 1
      have h5 : W * 1 ≤ W * H := Nat.mul_le_mul_left W hH
      have e3 : W * H - 1 = W * (H - 1) + (W - 1) := by omega
      rw [e3, Nat.mul_add_div hW, Nat.div_eq_of_lt (by omega)]
      omega
    rw [e2]
    have e4 : H + rpb - 1 = (H - 1) + rpb := by omega
    rw [e4, Nat.add_div_right _ hrpb]

/-- The partition property claimed for the scheduler: every chunk starts and
ends on a whole-row boundary (`chunkStart`/`chunkLen` are row multiples
consistent with `bandTop`/`bandHeight`), the row intervals of distinct bands
are disjoint, and the union of the row intervals is exactly `[0, H)`. -/
def bandsPartitionSpec (W H N : ℕ) : Prop :=
  (∀ i, i < numChunks (W * H) (rowsPerBand H N * W) →
    chunkStart (rowsPerBand H N * W) i = bandTop (rowsPerBand H N) i * W ∧
    chunkLen (W * H) (rowsPerBand H N * W) i =
      bandHeight W H (rowsPerBand H N) i * W) ∧
  (∀ i j, i < numChunks (W * H) (rowsPerBand H N * W) →
    j < numChunks (W * H) (rowsPerBand H N * W) → i ≠ j →
    ∀ r, (bandTop (rowsPerBand H N) i ≤ r ∧
        r < bandTop (rowsPerBand H N) i + bandHeight W H (rowsPerBand H N) i) →
      ¬(bandTop (rowsPerBand H N) j ≤ r ∧
        r < bandTop (rowsPerBand H N) j + bandHeight W H (rowsPerBand H N) j)) ∧
  (∀ r, r < H ↔ ∃ i, i < numChunks (W * H) (rowsPerBand H N * W) ∧
    bandTop (rowsPerBand H N) i ≤ r ∧
    r < bandTop (rowsPerBand H N) i + bandHeight W H (rowsPerBand H N) i)

theorem bands_flatten (rpb : ℕ) (hrpb : 0 < rpb) : ∀ (n H : ℕ),
    (H + rpb - 1) / rpb = n →
    ((List.range n).flatMap fun i =>
      (List.range (min rpb (H - rpb * i))).map fun r => rpb * i + r) =
    List.range H := by
  intro n
  induction n with
  | zero =>
    intro H h0
    have hH : H = 0 := by
      have h1 := (Nat.div_eq_zero_iff hrpb).mp h0
      omega
    subst hH
    simp
  | succ n ih =>
    intro H h0
    have hH : 0 < H := by
      by_contra h
      push_neg at h
      have hH0 : H = 0 := by omega
      subst hH0
      rw [Nat.zero_add, Nat.div_eq_of_lt (by omega)] at h0
      omega
    rw [List.range_succ_eq_map, List.flatMap_cons]
    by_cases hcase : H ≤ rpb
    · have hn : n = 0 := by
        have h2 : (H + rpb - 1) / rpb < 2 :=
          (Nat.div_lt_iff_lt_mul hrpb).mpr (by omega)
        omega
      subst hn
      simp only [List.range_zero, List.map_nil, List.flatMap_nil,
        List.append_nil, Nat.mul_zero, Nat.sub_zero]
      rw [min_eq_right hcase]
      simp
    · push_neg at hcase
      have hmin : min rpb (H - rpb * 0) = rpb := by
        rw [Nat.mul_zero, Nat.sub_zero]
        exact min_eq_left (by omega)
      rw [hmin]
      have hhead : ((List.range rpb).map fun r => rpb * 0 + r) =
          List.range rpb := by
        simp
      rw [hhead, List.flatMap_map]
      have htail : ((List.range n).flatMap fun i =>
          (List.range (min rpb (H - rpb * Nat.succ i))).map
            fun r => rpb * Nat.succ i + r) =
          ((List.range n).flatMap fun i =>
            (List.range (min rpb ((H - rpb) - rpb * i))).map
              fun r => rpb * i + r).map fun x => rpb + x := by
        rw [List.map_flatMap]
        refine congrArg (List.flatMap (List.range n)) (funext fun i => ?_)
        rw [List.map_map]
        have e1 : H - rpb * Nat.succ i = (H - rpb) - rpb * i := by
          have e0 : rpb * Nat.succ i = rpb * i + rpb := Nat.mul_succ rpb i
          omega
        rw [e1]
        have e2 : (fun r => rpb * Nat.succ i + r) =
            ((fun x => rpb + x) ∘ fun r => rpb * i + r) := by
          funext r
          show rpb * Nat.succ i + r = rpb + (rpb * i + r)
          have e0 : rpb * Nat.succ i = rpb * i + rpb := Nat.mul_succ rpb i
          omega
        rw [e2]
    
      rw [htail]
      have hn' : ((H - rpb) + rpb - 1) / rpb = n := by
        have e5 : H + rpb - 1 = ((H - rpb) + rpb - 1) + rpb := by omega
        rw [e5, Nat.add_div_right _ hrpb] at h0
        omega
      rw [ih (H - rpb) hn']
      have e6 : H = rpb + (H - rpb) := by omega
      conv_rhs => rw [e6, List.range_add]

theorem band_disjoint_aux (H rpb : ℕ) (i j r : ℕ) (hij : i < j)
    (_h1 : rpb * i ≤ r) (h2 : r < rpb * i + min rpb (H - rpb * i))
    (h3 : rpb * j ≤ r) : False := by
  have e1 : min rpb (H - rpb * i) ≤ rpb := Nat.min_le_left _ _
  have e2 : rpb * (i + 1) ≤ rpb * j := Nat.mul_le_mul_left rpb (by omega)
  have e3 : rpb * (i + 1) = rpb * i + rpb := Nat.mul_succ rpb i
  omega

/-- Claim C3: for `H ≥ 1`, positive width, and every worker count from 1 to
`H`, the row-bands of the scheduler's partition (`rowsPerBand = H/N + 1`,
consecutive chunks of the flat buffer, band `i` starting at top row
`i * rowsPerBand`, the last band truncated) are pairwise disjoint, consist of
whole rows, and cover exactly the row range `[0, H)`. -/
theorem bands_partition (W H N : ℕ) (hW : 0 < W) (hN : 1 ≤ N) (hNH : N ≤ H) :
    bandsPartitionSpec W H N := by
  have hrpb : 0 < rowsPerBand H N := Nat.succ_pos (H / N)
  set rpb := rowsPerBand H N with hdef
  have hnum : numChunks (W * H) (rpb * W) = (H + rpb - 1) / rpb :=
    numChunks_eq W H rpb hW hrpb
  have hbh : ∀ i, bandHeight W H rpb i = min rpb (H - rpb * i) :=
    fun i => bandHeight_eq W H rpb i hW
  have htp : ∀ i, bandTop rpb i = rpb * i := fun i => rfl
  refine ⟨?_, ?_, ?_⟩
  · intro i _
    constructor
    · show i * (rpb * W) = rpb * i * W
      ring
    · rw [chunkLen_eq W H rpb i, hbh i]
      ring
  · intro i j _ _ hne r hr hrj
    rw [htp, hbh] at hr hrj
    rcases Nat.lt_or_ge i j with hij | hij
    · exact band_disjoint_aux H rpb i j r hij hr.1 hr.2 hrj.1
    · have hji : j < i := by omega
      exact band_disjoint_aux H rpb j i r hji hrj.1 hrj.2 hr.1
  · intro r
    rw [hnum]
    constructor
    · intro hr
      refine ⟨r / rpb, ?_, ?_, ?_⟩
      · rw [Nat.lt_iff_add_one_le, Nat.le_div_iff_mul_le hrpb]
        have e1 : (r / rpb + 1) * rpb = r / rpb * rpb + rpb := by ring
        have e2 : r / rpb * rpb ≤ r := Nat.div_mul_le_self r rpb
        omega
      · rw [htp]
        have h := Nat.div_add_mod r rpb
        omega
      · rw [htp, hbh]
        have h := Nat.div_add_mod r rpb
        have hm := Nat.mod_lt r hrpb
        rcases le_total rpb (H - rpb * (r / rpb)) with hc | hc
        · rw [min_eq_left hc]
          omega
        · rw [min_eq_right hc]
          omega
    · rintro ⟨i, _, h1, h2⟩
      rw [htp] at h1
      rw [htp, hbh] at h2
      have hm1 : min rpb (H - rpb * i) ≤ H - rpb * i := Nat.min_le_right _ _
      omega

/-- Witness for claim C3 at the concrete bounds `W = 3`, `H = 5`, worker
count `N = 2`. -/
theorem bands_partition_witness :
    ((0 : ℕ) < 3 ∧ (1 : ℕ) ≤ 2 ∧ (2 : ℕ) ≤ 5) ∧ bandsPartitionSpec 3 5 2 :=
  ⟨⟨by decide, by decide, by decide⟩,
    bands_partition 3 5 2 (by decide) (by decide) (by decide)⟩

/-- Exact-arithmetic identity of the model: mapping a band-local pixel
through the band's recomputed corner points agrees with mapping the global
pixel directly. The proof cancels `W * x / W` and `h * y / h` exactly, which
is valid over `ℚ` but not under IEEE `f64` rounding. -/
theorem pixel_to_point_band (W H h top col r : ℕ) (ul lr : Cplx)
    (hW : 0 < W) (hh : 0 < h) :
    pixel_to_point (W, h) (col, r)
      (pixel_to_point (W, H) (0, top) ul lr)
      (pixel_to_point (W, H) (W, top + h) ul lr) =
    pixel_to_point (W, H) (col, top + r) ul lr := by
  have hW' : (W : ℚ) ≠ 0 := Nat.cast_ne_zero.mpr (by omega)
  have hh' : (h : ℚ) ≠ 0 := Nat.cast_ne_zero.mpr (by omega)
  unfold pixel_to_point
  dsimp only
  rw [Cplx.mk.injEq]
  constructor
  · push_cast
    field_simp
  · push_cast
    simp only [mul_div_assoc]
    set Y := (ul.im - lr.im) / (H : ℚ) with hY
    have e : (ul.im - (top : ℚ) * Y) - (ul.im - ((top : ℚ) + (h : ℚ)) * Y) =
        (h : ℚ) * Y := by ring
    rw [e, mul_div_cancel_left₀ Y hh']
    ring

theorem renderPure_band (W H h top : ℕ) (ul lr : Cplx) (lo hi : Color)
    (hW : 0 < W) (hh : 0 < h) :
    renderPure W h (pixel_to_point (W, H) (0, top) ul lr)
        (pixel_to_point (W, H) (W, top + h) ul lr) lo hi =
      (List.range h).flatMap fun r =>
        (List.range W).map fun col => pixelColor W H col (top + r) ul lr lo hi := by
  unfold renderPure
  refine congrArg (List.flatMap (List.range h)) (funext fun r => ?_)
  refine congrArg (fun f => List.map f (List.range W)) (funext fun col => ?_)
  unfold pixelColor
  rw [pixel_to_point_band W H h top col r ul lr hW hh]

/-- The rendering pipeline of `main` (lines 192–211) with an explicit worker
count: `rows_per_band = bounds.1 / workers + 1`, the pixel buffer is split
into `chunks_mut(rows_per_band * bounds.0)`, and chunk `i` (top row
`rows_per_band * i`, height `band.len() / bounds.0`) is rendered by `render`
with its own recomputed corner points
`pixel_to_point(bounds, (0, top))` / `pixel_to_point(bounds, (bounds.0,
top + height))`. Each chunk's output is its `renderPure` list (justified by
`render_ok`); the full buffer is their concatenation in chunk order. -/
def mainRender (W H workers : ℕ) (ul lr : Cplx) (lo hi : Color) : List Color :=
  (List.range (numChunks (W * H) (rowsPerBand H workers * W))).flatMap fun i =>
    renderPure W (bandHeight W H (rowsPerBand H workers) i)
      (pixel_to_point (W, H) (0, bandTop (rowsPerBand H workers) i) ul lr)
      (pixel_to_point (W, H)
        (W, bandTop (rowsPerBand H workers) i +
          bandHeight W H (rowsPerBand H workers) i) ul lr)
      lo hi

/-- Exact-arithmetic identity of the model: over `ℚ`, the banded pipeline
reproduces the full-image render for any worker count. This rests on the
exact cancellations of `pixel_to_point_band` and is specific to the exact
model: under IEEE `f64` the recomputed band corners and per-pixel points are
rounded independently per worker count, so this identity does not transfer
to the program's floating-point arithmetic. -/
theorem mainRender_eq_renderPure (W H workers : ℕ) (ul lr : Cplx)
    (lo hi : Color) (hW : 0 < W) :
    mainRender W H workers ul lr lo hi = renderPure W H ul lr lo hi := by
  have hrpb0 : 0 < rowsPerBand H workers := Nat.succ_pos (H / workers)
  unfold mainRender
  set rpb := rowsPerBand H workers with hdef
  rw [numChunks_eq W H rpb hW hrpb0]
  have hstep : (fun i => renderPure W (bandHeight W H rpb i)
      (pixel_to_point (W, H) (0, bandTop rpb i) ul lr)
      (pixel_to_point (W, H)
        (W, bandTop rpb i + bandHeight W H rpb i) ul lr)
      lo hi) =
      (fun i => ((List.range (bandHeight W H rpb i)).map
          fun r => bandTop rpb i + r).flatMap
        fun p => (List.range W).map fun col => pixelColor W H col p ul lr lo hi) := by
    funext i
    rw [List.flatMap_map]
    rcases Nat.eq_zero_or_pos (bandHeight W H rpb i) with h0 | hpos
    · rw [h0]
      simp [renderPure]
    · exact renderPure_band W H (bandHeight W H rpb i) (bandTop rpb i)
        ul lr lo hi hW hpos
  rw [hstep]
  rw [show ((List.range ((H + rpb - 1) / rpb)).flatMap fun i =>
      ((List.range (bandHeight W H rpb i)).map
          fun r => bandTop rpb i + r).flatMap
        fun p => (List.range W).map fun col => pixelColor W H col p ul lr lo hi) =
      (((List.range ((H + rpb - 1) / rpb)).flatMap fun i =>
        (List.range (bandHeight W H rpb i)).map fun r => bandTop rpb i + r).flatMap
        fun p => (List.range W).map fun col => pixelColor W H col p ul lr lo hi)
    from (List.flatMap_assoc _ _ _).symm]
  have hbe : (fun i => (List.range (bandHeight W H rpb i)).map
      fun r => bandTop rpb i + r) =
      (fun i => (List.range (min rpb (H - rpb * i))).map
        fun r => rpb * i + r) := by
    funext i
    rw [bandHeight_eq W H rpb i hW]
    rfl
  rw [hbe, bands_flatten rpb hrpb0 ((H + rpb - 1) / rpb) H rfl]
  rfl

/-- Numeric value of a digit string (most significant digit first). -/
def digitsVal (l : List Char) : ℕ :=
  l.foldl (fun acc c => 10 * acc + (c.toNat - 48)) 0

/-- Model of `i32::from_str` (the `T::from_str` instantiation `parse_pair`
is used with in the claim): an optional sign followed by one or more ASCII
digits, with the value required to fit in a 32-bit signed integer; anything
else — the empty string, stray characters, trailing garbage — is an error. -/
def fromStrI32 (l : List Char) : Option ℤ :=
  match l with
  | '-' :: ds =>
    if ds ≠ [] ∧ ds.all Char.isDigit ∧ (digitsVal ds : ℤ) ≤ 2147483648 then
      some (-(digitsVal ds : ℤ))
    else none
  | '+' :: ds =>
    if ds ≠ [] ∧ ds.all Char.isDigit ∧ (digitsVal ds : ℤ) < 2147483648 then
      some (digitsVal ds : ℤ)
    else none
  | ds =>
    if ds ≠ [] ∧ ds.all Char.isDigit ∧ (digitsVal ds : ℤ) < 2147483648 then
      some (digitsVal ds : ℤ)
    else none

/-- Translation of `fn parse_pair<T: FromStr>(s: &str, separator: char)` from
`src/mandlebrot/src/main.rs` (lines 38–48), at `T = i32`: find the first
occurrence of the separator, parse the substrings before and after it, and
return the pair only when both parse. -/
def parse_pair (s : List Char) (separator : Char) : Option (ℤ × ℤ) :=
  match s.findIdx? (· == separator) with
  | none => none
  | some index =>
    match fromStrI32 (s.take index), fromStrI32 (s.drop (index + 1)) with
    | some l, some r => some (l, r)
    | _, _ => none

/-- Claim C9: `parse_pair` over `i32` with separator `,` maps `"10,20"` to
`(10, 20)`, and maps `"10"` (no separator), `",10"` (empty left component)
and `"10,20xy"` (trailing garbage on the right) to no-match. -/
theorem parse_pair_examples :
    parse_pair ['1', '0', ',', '2', '0'] ',' = some (10, 20) ∧
    parse_pair ['1', '0'] ',' = none ∧
    parse_pair [',', '1', '0'] ',' = none ∧
    parse_pair ['1', '0', ',', '2', '0', 'x', 'y'] ',' = none := by
  refine ⟨?_, ?_, ?_, ?_⟩ <;> rfl
